import Mathlib

/-
Verification development for kombine's ensemble sampler
(`src/kombine/sampler.py`).

Shallow embedding notes:
* Real-valued data (walker positions, log-posterior and log-proposal values,
  acceptance rates) is modelled over `ℚ`; numpy float arrays are modelled as
  Lean lists.  Floating-point roundoff is not modelled.
* `np.random` draws (proposal batches and uniform variates) and the external
  collaborators (the user posterior, the KDE density fitting, the scipy
  two-sample KS test) are supplied as explicit parameters of the embedding,
  bundled in `Kombine.Ctx` and passed as oracle arguments, so every
  definition stays executable.
* Exceptions raised by the user posterior or the proposal-density evaluation
  are modelled with `Except`; the interruptible worker pool is modelled by a
  generation counter (`poolGen`) that is bumped each time the source closes
  the pool and opens a new one.
-/

namespace Kombine

/-- A single walker position: a `dim`-vector of coordinates. -/
abbrev Pos := List ℚ

/-- An ensemble of walker positions (`nwalkers × dim`). -/
abbrev Ensemble := List Pos

/-- Python `int()` truncates toward zero; every argument it receives in
`Sampler.burnin` (`10 * 1/mean`, `.1*nwalkers`, `1./low_rate`) is
nonnegative, where truncation agrees with the floor. -/
def pyIntNat (q : ℚ) : ℕ := (⌊q⌋).toNat

/-- Acceptance flags are stored by the source in a float array of `0.0`/`1.0`
entries; `boolQ` maps the modelled flag back to the stored numeric value. -/
def boolQ (b : Bool) : ℚ := if b then 1 else 0

/-- np.mean of a 1-d array; `none` models the nan produced on an empty input
(feeding that nan to `int()` raises in the source). -/
def npMean (l : List ℚ) : Option ℚ :=
  if l.isEmpty then none else some (l.sum / l.length)

/-- Python slice `a[-w:]` as used on the acceptance history: `w = 0` selects
the whole array (`a[-0:]` is `a[0:]`), otherwise the last `w` rows. -/
def pyTakeLast (l : List α) (w : ℕ) : List α :=
  if w = 0 then l else l.drop (l.length - w)

/-- np.mean(acceptance[-window:], axis=0): each walker's average acceptance
flag over the last `window` stored iterations. -/
def acceptanceRates (hist : List (List Bool)) (window nwalkers : ℕ) : List ℚ :=
  let lastW := pyTakeLast hist window
  (List.range nwalkers).map fun j =>
    ((lastW.map fun row => boolQ (row.getD j false)).sum) / (lastW.length : ℚ)

/-- Insertion into an ascending list, for `np.sort`. -/
def insertSorted (x : ℚ) : List ℚ → List ℚ
  | [] => [x]
  | y :: ys => if x ≤ y then x :: y :: ys else y :: insertSorted x ys

/-- np.sort: ascending sort of a 1-d array. -/
def sortQ : List ℚ → List ℚ
  | [] => []
  | x :: xs => insertSorted x (sortQ xs)

/-- The test-interval adjustment performed by `Sampler.burnin` when a K-S
test cycle fails (sampler.py lines 139-155).  `none` models the exceptions
of the source: `acceptance[-1]` on an empty history (IndexError), `int(nan)`
from the mean of an empty row (ValueError), `int(10 * 1/0.0) = int(inf)`
(OverflowError), and `np.sort(rates)[index]` out of range (IndexError).
Python `int()` truncates (`pyIntNat`). -/
def adjustInterval (hist : List (List Bool)) (nwalkers : ℕ) : Option ℕ :=
  match hist.getLast? with
  | none => none
  | some lastRow =>
    match npMean (lastRow.map boolQ) with
    | none => none
    | some m =>
      if m = 0 then none
      else
        let window := pyIntNat (10 / m)
        let rates := acceptanceRates hist window nwalkers
        let index := pyIntNat ((nwalkers : ℚ) / 10)
        match (sortQ rates).get? index with
        | none => none
        | some low_rate =>
          if 0 < low_rate then some (pyIntNat (1 / low_rate)) else some window

/-- Rounding to the nearest natural, used only to state claim C7's wording
(`round` where the source truncates with `int()`). -/
def roundNat (q : ℚ) : ℕ := (round q).toNat

/-- The adjustment as claim C7 words it: window and next interval obtained
with `round` instead of the source's truncating `int()` (the percentile
index keeps the floor the claim itself specifies).  Declared only to be
compared against `adjustInterval`, which is translated from the source. -/
def adjustIntervalClaim (hist : List (List Bool)) (nwalkers : ℕ) : Option ℕ :=
  match hist.getLast? with
  | none => none
  | some lastRow =>
    match npMean (lastRow.map boolQ) with
    | none => none
    | some m =>
      if m = 0 then none
      else
        let window := roundNat (10 / m)
        let rates := acceptanceRates hist window nwalkers
        let index := pyIntNat ((nwalkers : ℚ) / 10)
        match (sortQ rates).get? index with
        | none => none
        | some low_rate =>
          if 0 < low_rate then some (roundNat (1 / low_rate)) else some window

/-- State of a `Sampler` object (sampler.py `__init__`): the four parallel
history arrays, the iteration counter, the current proposal density (of
abstract type `D`, `none` before the first fit), the last failed batch, the
`processes` constructor argument (Python `None` is `Option.none`), and a
pool generation counter standing for the identity of the worker pool. -/
structure SamplerState (D : Type) where
  nwalkers : ℕ
  dim : ℕ
  iterations : ℕ
  chain : List Ensemble
  lnpostH : List (List ℚ)
  lnpropH : List (List ℚ)
  acceptanceH : List (List Bool)
  failed_p : Option Ensemble
  kde : Option D
  processes : Option ℕ
  poolGen : ℕ
deriving DecidableEq

/-- Sampler.rollback: shrink the four history arrays to length `iteration`
and, when a pool is in use (`self.processes != 1`; note Python's
`None != 1` is true), close it and open a new one.  The source does not
modify the `iterations` counter here. -/
def rollback (st : SamplerState D) (iteration : ℕ) : SamplerState D :=
  { st with
    chain := st.chain.take iteration
    lnpostH := st.lnpostH.take iteration
    lnpropH := st.lnpropH.take iteration
    acceptanceH := st.acceptanceH.take iteration
    poolGen := if st.processes ≠ some 1 then st.poolGen + 1 else st.poolGen }

/-- Oracles and randomness of one run.  `draws n` is the proposal batch
`self.draw(self.nwalkers)` produced when the committed iteration count is
`n`; `us n j` is the `j`-th entry of `np.random.rand(nworse)` at that count;
`initDraw` is the batch drawn for a `p0 = None` call; `npLogPos` stands for
`np.log` on the (strictly positive) uniform variates — `np.log 0 = -inf` is
treated separately in `acceptWorse`. -/
structure Ctx (E D : Type) where
  lnpostfn : Pos → Except E ℚ
  kdeEval : D → Pos → Except E ℚ
  fit : Ensemble → D
  draws : ℕ → Ensemble
  us : ℕ → ℕ → ℚ
  initDraw : Ensemble
  npLogPos : ℚ → ℚ

/-- GetLnProbWrapper.__call__: evaluate the user posterior, then the
proposal density, at one position; the first raise aborts the pair. -/
def getLnProb (lnpostfn : Pos → Except E ℚ) (kdeEval : D → Pos → Except E ℚ)
    (kde : D) (p : Pos) : Except E (ℚ × ℚ) := do
  let a ← lnpostfn p
  let b ← kdeEval kde p
  pure (a, b)

/-- The batch map `m(GetLnProbWrapper(...), p)`: order-preserving, and it
surfaces the first error raised by any unit of work. -/
def evalBatch (lnpostfn : Pos → Except E ℚ) (kdeEval : D → Pos → Except E ℚ)
    (kde : D) (ps : Ensemble) : Except E (List (ℚ × ℚ)) :=
  ps.mapM (getLnProb lnpostfn kdeEval kde)

/-- Elementwise `ln_mh_ratio = lnpost_p - lnpost + lnprop - lnprop_p`
(sampler.py line 259). -/
def mhRatios (lnpost_p lnpost lnprop lnprop_p : List ℚ) : List ℚ :=
  List.zipWith (· - ·)
    (List.zipWith (· + ·) (List.zipWith (· - ·) lnpost_p lnpost) lnprop)
    lnprop_p

/-- Acceptance of one `worse` walker: `ln_mh_ratio > np.log(u)`.  numpy's
`np.log 0` evaluates to `-inf` (with a runtime warning, not an exception),
and every ratio representable here is finite, so the comparison accepts;
the source contains no guard for a zero draw. -/
def acceptWorse (npLogPos : ℚ → ℚ) (r u : ℚ) : Bool :=
  if u = 0 then true else decide (npLogPos u < r)

/-- The acceptance vector of one iteration (sampler.py lines 262-268):
`acc = ln_mh_ratio > 0`, then the `worse` walkers consume one uniform draw
each, in walker order (`j` counts the draws consumed so far). -/
def acceptFrom (npLogPos : ℚ → ℚ) (u : ℕ → ℚ) : List ℚ → ℕ → List Bool
  | [], _ => []
  | r :: rs, j =>
    if 0 < r then true :: acceptFrom npLogPos u rs j
    else acceptWorse npLogPos r (u j) :: acceptFrom npLogPos u rs (j + 1)

/-- Masked in-place update `x[acc] = x_p[acc]`: accepted walkers take the
proposed entry, rejected walkers keep the old one. -/
def updWhere : List Bool → List α → List α → List α
  | a :: as, o :: os, n :: ns => (if a then n else o) :: updWhere as os ns
  | _, os, _ => os

/-- Result of one loop iteration of `Sampler.sample` (or of the remaining
loop): the object state plus the local working variables `p`, `lnpost`,
`lnprop`, and the exception, if one was re-raised. -/
structure StepRes (E D : Type) where
  st : SamplerState D
  p : Ensemble
  lnpost : List ℚ
  lnprop : List ℚ
  err : Option E
deriving DecidableEq

/-- One iteration of the `for i in xrange(iterations)` loop of
`Sampler.sample` (lines 237-286): draw a batch, evaluate it (on failure:
`rollback(self.iterations)`, store the batch in `failed_p`, re-raise),
accept/reject, write the four history rows at index `self.iterations`,
increment the counter, and refit the proposal when the new count is a
multiple of `update_interval`. -/
def mhStep (C : Ctx E D) (update_interval : ℕ) (kde : D) (st : SamplerState D)
    (p : Ensemble) (lnpost lnprop : List ℚ) : StepRes E D :=
  let p_p := C.draws st.iterations
  match evalBatch C.lnpostfn C.kdeEval kde p_p with
  | .error e =>
    let st' := rollback st st.iterations
    ⟨{ st' with failed_p := some p_p }, p, lnpost, lnprop, some e⟩
  | .ok results =>
    let lnpost_p := results.map Prod.fst
    let lnprop_p := results.map Prod.snd
    let rs := mhRatios lnpost_p lnpost lnprop lnprop_p
    let acc := acceptFrom C.npLogPos (C.us st.iterations) rs 0
    let pNew := updWhere acc p p_p
    let lnpostNew := updWhere acc lnpost lnpost_p
    let lnpropNew := updWhere acc lnprop lnprop_p
    ⟨{ st with
        chain := st.chain.set st.iterations pNew
        lnpostH := st.lnpostH.set st.iterations lnpostNew
        lnpropH := st.lnpropH.set st.iterations lnpropNew
        acceptanceH := st.acceptanceH.set st.iterations acc
        iterations := st.iterations + 1
        kde := if (st.iterations + 1) % update_interval = 0
               then some (C.fit pNew) else st.kde },
      pNew, lnpostNew, lnpropNew, none⟩

/-- The sampling loop: `k` remaining iterations.  The current proposal
density is read from the state (always present once `sample` has installed
one; the `none` branch is unreachable from `sample`).  The first re-raised
exception aborts the remaining iterations. -/
def sampleLoop (C : Ctx E D) (update_interval : ℕ) :
    ℕ → SamplerState D → Ensemble → List ℚ → List ℚ → StepRes E D
  | 0, st, p, lnpost, lnprop => ⟨st, p, lnpost, lnprop, none⟩
  | k + 1, st, p, lnpost, lnprop =>
    match st.kde with
    | none => ⟨st, p, lnpost, lnprop, none⟩
    | some kde =>
      let r := mhStep C update_interval kde st p lnpost lnprop
      match r.err with
      | some _ => r
      | none => sampleLoop C update_interval k r.st r.p r.lnpost r.lnprop

/-- Outcome of a `Sampler.sample` call.  Besides the final object state, the
return triple and the re-raised exception (if any), it records the final
contents of the three caller-supplied buffers: `p = np.array(p0)` copies, so
the caller's `p0` is never written, while `lnpost = lnpost0` and
`lnprop = lnprop0` alias, so the in-place masked updates of the loop land in
the caller's arrays whenever they were supplied. -/
structure SampleOut (E D : Type) where
  st : SamplerState D
  p : Ensemble
  lnpost : List ℚ
  lnprop : List ℚ
  err : Option E
  callerP0 : Option Ensemble
  callerLnpost0 : Option (List ℚ)
  callerLnprop0 : Option (List ℚ)
deriving DecidableEq

/-- Lines 214-216: build a proposal from the current ensemble positions when
none exists yet (`optimized_kde(p, pool)`), returning the (possibly updated)
state together with the density now installed. -/
def ensureKde (C : Ctx E D) (st0 : SamplerState D) (p : Ensemble) :
    SamplerState D × D :=
  match st0.kde with
  | some k => (st0, k)
  | none => ({ st0 with kde := some (C.fit p) }, C.fit p)

/-- Lines 218-225: compute the initial log-values when either was not
supplied; an exception from the batch map propagates (`Except.error`)
before any history mutation.  A supplied buffer is used as-is. -/
def initVals (C : Ctx E D) (kde : D) (p : Ensemble)
    (lnpost0 lnprop0 : Option (List ℚ)) : Except E (List ℚ × List ℚ) :=
  if lnpost0.isNone || lnprop0.isNone then
    match evalBatch C.lnpostfn C.kdeEval kde p with
    | .error e => .error e
    | .ok results =>
      .ok (lnpost0.getD (results.map Prod.fst),
           lnprop0.getD (results.map Prod.snd))
  else
    .ok (lnpost0.getD [], lnprop0.getD [])

/-- Lines 227-235: pre-extend the four history arrays by `iterations` zero
rows ahead of the loop ("Prepare arrays for storage ahead of time"). -/
def preExtend (st1 : SamplerState D) (iterations : ℕ) : SamplerState D :=
  { st1 with
    chain := st1.chain ++
      List.replicate iterations
        (List.replicate st1.nwalkers (List.replicate st1.dim 0))
    lnpostH := st1.lnpostH ++
      List.replicate iterations (List.replicate st1.nwalkers 0)
    lnpropH := st1.lnpropH ++
      List.replicate iterations (List.replicate st1.nwalkers 0)
    acceptanceH := st1.acceptanceH ++
      List.replicate iterations (List.replicate st1.nwalkers false) }

/-- Sampler.sample (lines 164-292): resolve `p0` (`np.array(p0)` copies, or
draw from the proposal when `None`), build a proposal if none exists,
compute initial log-values when not supplied (an exception here propagates
before any history mutation), pre-extend the four history arrays by
`iterations` zero rows, then run the loop. -/
def sample (C : Ctx E D) (st0 : SamplerState D)
    (p0 : Option Ensemble) (lnpost0 lnprop0 : Option (List ℚ))
    (iterations update_interval : ℕ) : SampleOut E D :=
  let p := p0.getD C.initDraw
  let ek := ensureKde C st0 p
  match initVals C ek.2 p lnpost0 lnprop0 with
  | .error e =>
    ⟨ek.1, p, [], [], some e, p0, lnpost0, lnprop0⟩
  | .ok (lnpost, lnprop) =>
    let r := sampleLoop C update_interval iterations
      (preExtend ek.1 iterations) p lnpost lnprop
    ⟨r.st, r.p, r.lnpost, r.lnprop, r.err,
      p0,
      lnpost0.map fun _ => r.lnpost,
      lnprop0.map fun _ => r.lnprop⟩

/-- Ways a `burnin` call can end exceptionally: an exception re-raised out
of `sample`, or one of the arithmetic/indexing errors of the interval
adjustment (`adjustInterval = none`). -/
inductive BurninErr (E : Type) where
  | fromSample (e : E)
  | adjustFail
deriving DecidableEq

/-- Outcome of a `Sampler.burnin` call: final object state, last reached
`(p, lnpost, lnprop)` (the log-value buffers stay `none` only if no pass
ran), the burned-in verdict, and the propagated exception if any. -/
structure BurninOut (E D : Type) where
  st : SamplerState D
  p : Ensemble
  lnpost : Option (List ℚ)
  lnprop : Option (List ℚ)
  burned_in : Bool
  err : Option (BurninErr E)

/-- The K-S acceptance check of one burn-in cycle (lines 130-136):
burned-in iff no dimension's two-sample p-value falls below `0.05`.
`ksPval` is the scipy `ks_2samp` p-value oracle, applied to each parameter
column of the start and end ensembles. -/
def ksPassAll (ksPval : List ℚ → List ℚ → ℚ) (dim : ℕ) (p0 p : Ensemble) : Bool :=
  (List.range dim).all fun par =>
    decide ((1 : ℚ)/20 ≤ ksPval (p0.map fun row => row.getD par 0)
                               (p.map fun row => row.getD par 0))

/-- The `while not burned_in` loop of `Sampler.burnin` (lines 121-157),
with explicit fuel: `none` is fuel exhaustion (never the behavior of the
source; the termination theorems exhibit sufficient fuel).  Give up (break)
as soon as the next test window would carry the iteration count past
`maxIter`; otherwise run a `sample` pass, K-S test it, and on failure adapt
the interval with `adjustInterval`. -/
def burninLoop (C : Ctx E D) (ksPval : List ℚ → List ℚ → ℚ)
    (update_interval : ℕ) (maxIter : Option ℕ) :
    ℕ → ℕ → SamplerState D → Ensemble → Option (List ℚ) → Option (List ℚ) →
    Option (BurninOut E D)
  | 0, _, _, _, _, _ => none
  | fuel + 1, t, st, p0, lnpost0, lnprop0 =>
    if (match maxIter with
        | some m => decide (m < st.iterations + t)
        | none => false) then
      some ⟨st, p0, lnpost0, lnprop0, false, none⟩
    else
      let out := sample C st (some p0) lnpost0 lnprop0 t update_interval
      match out.err with
      | some e =>
        some ⟨out.st, out.p, some out.lnpost, some out.lnprop, false,
              some (.fromSample e)⟩
      | none =>
        if ksPassAll ksPval st.dim p0 out.p then
          some ⟨out.st, out.p, some out.lnpost, some out.lnprop, true, none⟩
        else
          match adjustInterval out.st.acceptanceH out.st.nwalkers with
          | none =>
            some ⟨out.st, out.p, some out.lnpost, some out.lnprop, false,
                  some .adjustFail⟩
          | some tNew =>
            burninLoop C ksPval update_interval maxIter fuel tNew
              out.st out.p (some out.lnpost) (some out.lnprop)

/-- Sampler.burnin (lines 62-162): the initial test interval is
`update_interval`, clamped to `max_steps` when one is given; the absolute
iteration bound is `start + max_steps` (`none` stands for `np.inf`). -/
def burnin (C : Ctx E D) (ksPval : List ℚ → List ℚ → ℚ)
    (st : SamplerState D) (p0 : Ensemble)
    (lnpost0 lnprop0 : Option (List ℚ))
    (update_interval : ℕ) (max_steps : Option ℕ) (fuel : ℕ) :
    Option (BurninOut E D) :=
  let t0 := match max_steps with
    | none => update_interval
    | some ms => min update_interval ms
  let maxIter := max_steps.map (st.iterations + ·)
  burninLoop C ksPval update_interval maxIter fuel t0 st p0 lnpost0 lnprop0

/- Concrete fixtures used by counterexamples and witnesses. -/

/-- A one-walker, one-dimension sampler state with an already-fitted
proposal, `processes = 1` (sequential map, no pool), and empty histories. -/
def stInit : SamplerState Unit :=
  ⟨1, 1, 0, [], [], [], [], none, some (), some 1, 0⟩

/-- A state with one committed iteration, used to exercise `rollback`
directly. -/
def stOne : SamplerState Unit :=
  ⟨1, 1, 1, [[[0]]], [[0]], [[0]], [[true]], none, some (), some 1, 0⟩

/-- A one-walker state as it looks inside the sampling loop: no committed
iteration yet, but the four history arrays already pre-extended by one zero
row. -/
def stPre : SamplerState Unit :=
  ⟨1, 1, 0, [[[0]]], [[0]], [[0]], [[false]], none, some (), some 1, 0⟩

/-- Benign run context: posterior and proposal density evaluate to `0`
everywhere, every uniform draw is `1/2`. -/
def ctxOk : Ctx ℕ Unit :=
  ⟨fun _ => .ok 0, fun _ _ => .ok 0, fun _ => (), fun _ => [[0]],
   fun _ _ => 1/2, [[0]], fun _ => -1⟩

/-- Context whose posterior raises (error code `7`) at position `[5]`, the
position every proposal batch contains. -/
def ctxFail : Ctx ℕ Unit :=
  ⟨fun q => if q = [5] then .error 7 else .ok 0, fun _ _ => .ok 0,
   fun _ => (), fun _ => [[5]], fun _ _ => 1/2, [[0]], fun _ => -1⟩

/-- Context producing a strictly worse proposal (`lnpost_p = -1` against
`lnpost = 0`) while every uniform draw is exactly `0`. -/
def ctxZero : Ctx ℕ Unit :=
  ⟨fun _ => .ok (-1), fun _ _ => .ok 0, fun _ => (), fun _ => [[1]],
   fun _ _ => 0, [[0]], fun _ => -1⟩

/-- Acceptance history with a single stored iteration in which three of
five walkers accepted: the mean acceptance is `3/5`, so the source computes
`int(10/(3/5)) = int(16.66…) = 16` while claim C7's `round` gives `17`. -/
def histC7 : List (List Bool) := [[true, true, true, false, false]]

/- Helper lemmas on the list primitives. -/

theorem getD_take (l : List α) (n i : ℕ) (d : α) (h : i < n) :
    (l.take n).getD i d = l.getD i d := by
  simp [List.getD_eq_getElem?_getD, List.getElem?_take, h]

theorem getD_append_left (l l₂ : List α) (i : ℕ) (d : α) (h : i < l.length) :
    (l ++ l₂).getD i d = l.getD i d := by
  simp [List.getD_eq_getElem?_getD, List.getElem?_append, h]

theorem getD_set_ne (l : List α) (j i : ℕ) (v : α) (d : α) (h : j ≠ i) :
    (l.set j v).getD i d = l.getD i d := by
  simp [List.getD_eq_getElem?_getD, List.getElem?_set_ne h]

theorem getD_set_self (l : List α) (j : ℕ) (v : α) (d : α) (h : j < l.length) :
    (l.set j v).getD j d = v := by
  simp [List.getD_eq_getElem?_getD, List.getElem?_set_self h]

theorem acceptFrom_length (f : ℚ → ℚ) (u : ℕ → ℚ) :
    ∀ (rs : List ℚ) (j : ℕ), (acceptFrom f u rs j).length = rs.length
  | [], _ => rfl
  | r :: rs, j => by
    by_cases h : 0 < r <;>
      simp [acceptFrom, h, acceptFrom_length f u rs]

theorem acceptFrom_getD_pos (f : ℚ → ℚ) (u : ℕ → ℚ) :
    ∀ (rs : List ℚ) (j w : ℕ), w < rs.length → 0 < rs.getD w 0 →
      (acceptFrom f u rs j).getD w false = true
  | r :: rs, j, 0, _, hr => by
    have hr' : 0 < r := by simpa using hr
    simp [acceptFrom, hr']
  | r :: rs, j, w + 1, hw, hr => by
    have hw' : w < rs.length := by simpa using hw
    have hr' : 0 < rs.getD w 0 := by simpa using hr
    by_cases h : 0 < r <;>
      simpa [acceptFrom, h] using acceptFrom_getD_pos f u rs _ w hw' hr'

theorem acceptWorse_zero (f : ℚ → ℚ) (r : ℚ) : acceptWorse f r 0 = true := by
  simp [acceptWorse]

theorem acceptFrom_zero_draws (f : ℚ → ℚ) :
    ∀ (rs : List ℚ) (j w : ℕ), w < rs.length →
      (acceptFrom f (fun _ => 0) rs j).getD w false = true
  | r :: rs, j, 0, _ => by
    by_cases h : 0 < r <;> simp [acceptFrom, h, acceptWorse_zero]
  | r :: rs, j, w + 1, hw => by
    have hw' : w < rs.length := by simpa using hw
    by_cases h : 0 < r <;>
      simpa [acceptFrom, h] using acceptFrom_zero_draws f rs _ w hw'

theorem mhRatios_getD :
    ∀ (a b c d : List ℚ) (w : ℕ), w < a.length → w < b.length →
      w < c.length → w < d.length →
      (mhRatios a b c d).getD w 0 =
        a.getD w 0 - b.getD w 0 + c.getD w 0 - d.getD w 0
  | a₁ :: a, b₁ :: b, c₁ :: c, d₁ :: d, 0, _, _, _, _ => by
    simp [mhRatios]
  | a₁ :: a, b₁ :: b, c₁ :: c, d₁ :: d, w + 1, ha, hb, hc, hd => by
    have := mhRatios_getD a b c d w (by simpa using ha) (by simpa using hb)
      (by simpa using hc) (by simpa using hd)
    simpa [mhRatios] using this
  | [], _, _, _, w, ha, _, _, _ => absurd ha (by simp)
  | _ :: _, [], _, _, w, _, hb, _, _ => absurd hb (by simp)
  | _ :: _, _ :: _, [], _, w, _, _, hc, _ => absurd hc (by simp)
  | _ :: _, _ :: _, _ :: _, [], w, _, _, _, hd => absurd hd (by simp)

theorem mhRatios_length (a b c d : List ℚ) :
    (mhRatios a b c d).length =
      min (min (min a.length b.length) c.length) d.length := by
  simp [mhRatios]

theorem updWhere_getD_ne (d : α) :
    ∀ (acc : List Bool) (o n : List α) (w : ℕ),
      (updWhere acc o n).getD w d ≠ o.getD w d → acc.getD w false = true
  | [], o, n, w => by simp [updWhere]
  | a :: as, [], n, w => by simp [updWhere]
  | a :: as, o :: os, [], w => by simp [updWhere]
  | a :: as, o :: os, v :: ns, 0 => by
    cases a <;> simp [updWhere]
  | a :: as, o :: os, v :: ns, w + 1 => by
    intro h
    have h' : (updWhere as os ns).getD w d ≠ os.getD w d := by
      simpa [updWhere] using h
    simpa using updWhere_getD_ne d as os ns w h'

theorem updWhere_length :
    ∀ (acc : List Bool) (o n : List α), (updWhere acc o n).length = o.length
  | [], o, n => rfl
  | a :: as, [], n => rfl
  | a :: as, o :: os, [] => rfl
  | a :: as, o :: os, v :: ns => by
    simp [updWhere, updWhere_length as os ns]

/- Characterizations of one Metropolis-Hastings step. -/

theorem mhStep_err_eq (C : Ctx E D) (ui : ℕ) (kde : D) (st : SamplerState D)
    (p : Ensemble) (a b : List ℚ) (e : E)
    (hE : evalBatch C.lnpostfn C.kdeEval kde (C.draws st.iterations) =
      .error e) :
    mhStep C ui kde st p a b =
      ⟨{ rollback st st.iterations with
          failed_p := some (C.draws st.iterations) },
        p, a, b, some e⟩ := by
  simp [mhStep, hE]

theorem mhStep_ok_eq (C : Ctx E D) (ui : ℕ) (kde : D) (st : SamplerState D)
    (p : Ensemble) (a b : List ℚ) (res : List (ℚ × ℚ))
    (hE : evalBatch C.lnpostfn C.kdeEval kde (C.draws st.iterations) =
      .ok res) :
    mhStep C ui kde st p a b =
      (let acc := acceptFrom C.npLogPos (C.us st.iterations)
        (mhRatios (res.map Prod.fst) a b (res.map Prod.snd)) 0
      let pNew := updWhere acc p (C.draws st.iterations)
      ⟨{ st with
          chain := st.chain.set st.iterations pNew
          lnpostH := st.lnpostH.set st.iterations
            (updWhere acc a (res.map Prod.fst))
          lnpropH := st.lnpropH.set st.iterations
            (updWhere acc b (res.map Prod.snd))
          acceptanceH := st.acceptanceH.set st.iterations acc
          iterations := st.iterations + 1
          kde := if (st.iterations + 1) % ui = 0
                 then some (C.fit pNew) else st.kde },
        pNew,
        updWhere acc a (res.map Prod.fst),
        updWhere acc b (res.map Prod.snd), none⟩) := by
  simp [mhStep, hE]

/- Loop invariants of `sampleLoop`. -/

theorem sampleLoop_iter (C : Ctx E D) (ui : ℕ) :
    ∀ (k : ℕ) (st : SamplerState D) (p : Ensemble) (a b : List ℚ),
      st.kde.isSome = true →
      st.iterations ≤ (sampleLoop C ui k st p a b).st.iterations ∧
      (sampleLoop C ui k st p a b).st.iterations ≤ st.iterations + k ∧
      ((sampleLoop C ui k st p a b).err = none →
        (sampleLoop C ui k st p a b).st.iterations = st.iterations + k ∧
        (sampleLoop C ui k st p a b).st.kde.isSome = true) := by
  intro k
  induction k with
  | zero => intro st p a b h; simp [sampleLoop, h]
  | succ k ih =>
    intro st p a b h
    obtain ⟨kde, hkde⟩ := Option.isSome_iff_exists.mp h
    rcases hE : evalBatch C.lnpostfn C.kdeEval kde (C.draws st.iterations)
      with e | res
    · have hms := mhStep_err_eq C ui kde st p a b e hE
      simp [sampleLoop, hkde, hms, rollback]
    · have hms := mhStep_ok_eq C ui kde st p a b res hE
      have herr : (mhStep C ui kde st p a b).err = none := by rw [hms]
      have hit : (mhStep C ui kde st p a b).st.iterations =
          st.iterations + 1 := by rw [hms]
      have hkde' : (mhStep C ui kde st p a b).st.kde.isSome = true := by
        rw [hms]; dsimp only; split <;> simp [hkde]
      have hstep : sampleLoop C ui (k + 1) st p a b =
          sampleLoop C ui k (mhStep C ui kde st p a b).st
            (mhStep C ui kde st p a b).p
            (mhStep C ui kde st p a b).lnpost
            (mhStep C ui kde st p a b).lnprop := by
        simp only [sampleLoop, hkde, herr]
      rw [hstep]
      obtain ⟨ih1, ih2, ih3⟩ := ih (mhStep C ui kde st p a b).st
        (mhStep C ui kde st p a b).p (mhStep C ui kde st p a b).lnpost
        (mhStep C ui kde st p a b).lnprop hkde'
      refine ⟨by omega, by omega, fun hnone => ?_⟩
      obtain ⟨he, hk⟩ := ih3 hnone
      exact ⟨by omega, hk⟩

theorem sampleLoop_lengths (C : Ctx E D) (ui : ℕ) :
    ∀ (k : ℕ) (st : SamplerState D) (p : Ensemble) (a b : List ℚ),
      st.kde.isSome = true →
      st.chain.length = st.iterations + k →
      st.lnpostH.length = st.iterations + k →
      st.lnpropH.length = st.iterations + k →
      st.acceptanceH.length = st.iterations + k →
      ((sampleLoop C ui k st p a b).st.chain.length =
          (sampleLoop C ui k st p a b).st.iterations ∧
       (sampleLoop C ui k st p a b).st.lnpostH.length =
          (sampleLoop C ui k st p a b).st.iterations ∧
       (sampleLoop C ui k st p a b).st.lnpropH.length =
          (sampleLoop C ui k st p a b).st.iterations ∧
       (sampleLoop C ui k st p a b).st.acceptanceH.length =
          (sampleLoop C ui k st p a b).st.iterations) := by
  intro k
  induction k with
  | zero => intro st p a b h h1 h2 h3 h4; simp [sampleLoop]; omega
  | succ k ih =>
    intro st p a b h h1 h2 h3 h4
    obtain ⟨kde, hkde⟩ := Option.isSome_iff_exists.mp h
    rcases hE : evalBatch C.lnpostfn C.kdeEval kde (C.draws st.iterations)
      with e | res
    · have hms := mhStep_err_eq C ui kde st p a b e hE
      simp [sampleLoop, hkde, hms, rollback, List.length_take]
      omega
    · have hms := mhStep_ok_eq C ui kde st p a b res hE
      have herr : (mhStep C ui kde st p a b).err = none := by rw [hms]
      have hkde' : (mhStep C ui kde st p a b).st.kde.isSome = true := by
        rw [hms]; dsimp only; split <;> simp [hkde]
      have hstep : sampleLoop C ui (k + 1) st p a b =
          sampleLoop C ui k (mhStep C ui kde st p a b).st
            (mhStep C ui kde st p a b).p
            (mhStep C ui kde st p a b).lnpost
            (mhStep C ui kde st p a b).lnprop := by
        simp only [sampleLoop, hkde, herr]
      rw [hstep]
      refine ih _ _ _ _ hkde' ?_ ?_ ?_ ?_ <;>
        (rw [hms]; dsimp only; simp [List.length_set]; omega)

theorem sampleLoop_err_details (C : Ctx E D) (ui : ℕ) :
    ∀ (k : ℕ) (st : SamplerState D) (p : Ensemble) (a b : List ℚ),
      st.kde.isSome = true → ∀ e,
      (sampleLoop C ui k st p a b).err = some e →
      ((sampleLoop C ui k st p a b).st.failed_p =
         some (C.draws (sampleLoop C ui k st p a b).st.iterations) ∧
       (∃ kde, (sampleLoop C ui k st p a b).st.kde = some kde ∧
          evalBatch C.lnpostfn C.kdeEval kde
            (C.draws (sampleLoop C ui k st p a b).st.iterations) =
            .error e) ∧
       (sampleLoop C ui k st p a b).st.poolGen =
         (if st.processes ≠ some 1 then st.poolGen + 1 else st.poolGen) ∧
       (sampleLoop C ui k st p a b).st.processes = st.processes) := by
  intro k
  induction k with
  | zero => intro st p a b h e he; simp [sampleLoop] at he
  | succ k ih =>
    intro st p a b h e he
    obtain ⟨kde, hkde⟩ := Option.isSome_iff_exists.mp h
    rcases hE : evalBatch C.lnpostfn C.kdeEval kde (C.draws st.iterations)
      with e0 | res
    · have hms := mhStep_err_eq C ui kde st p a b e0 hE
      have hloop : sampleLoop C ui (k + 1) st p a b =
          ⟨{ rollback st st.iterations with
              failed_p := some (C.draws st.iterations) },
            p, a, b, some e0⟩ := by
        simp only [sampleLoop, hkde, hms]
      rw [hloop] at he ⊢
      have he0 : e0 = e := by simpa using he
      subst he0
      refine ⟨by simp [rollback], ⟨kde, ?_, ?_⟩, by simp [rollback], by simp [rollback]⟩
      · simp [rollback, hkde]
      · simpa [rollback] using hE
    · have hms := mhStep_ok_eq C ui kde st p a b res hE
      have herr : (mhStep C ui kde st p a b).err = none := by rw [hms]
      have hkde' : (mhStep C ui kde st p a b).st.kde.isSome = true := by
        rw [hms]; dsimp only; split <;> simp [hkde]
      have hproc : (mhStep C ui kde st p a b).st.processes = st.processes := by
        rw [hms]
      have hpool : (mhStep C ui kde st p a b).st.poolGen = st.poolGen := by
        rw [hms]
      have hstep : sampleLoop C ui (k + 1) st p a b =
          sampleLoop C ui k (mhStep C ui kde st p a b).st
            (mhStep C ui kde st p a b).p
            (mhStep C ui kde st p a b).lnpost
            (mhStep C ui kde st p a b).lnprop := by
        simp only [sampleLoop, hkde, herr]
      rw [hstep] at he ⊢
      obtain ⟨ih1, ih2, ih3, ih4⟩ := ih _ _ _ _ hkde' e he
      exact ⟨ih1, ih2, by rwa [hproc, hpool] at ih3, by rwa [hproc] at ih4⟩

theorem sampleLoop_succ_details (C : Ctx E D) (ui : ℕ) :
    ∀ (k : ℕ) (st : SamplerState D) (p : Ensemble) (a b : List ℚ),
      st.kde.isSome = true →
      (sampleLoop C ui k st p a b).err = none →
      ((sampleLoop C ui k st p a b).st.failed_p = st.failed_p ∧
       (sampleLoop C ui k st p a b).st.poolGen = st.poolGen ∧
       (sampleLoop C ui k st p a b).st.processes = st.processes ∧
       (sampleLoop C ui k st p a b).st.nwalkers = st.nwalkers ∧
       (sampleLoop C ui k st p a b).st.dim = st.dim) := by
  intro k
  induction k with
  | zero => intro st p a b h _; simp [sampleLoop]
  | succ k ih =>
    intro st p a b h he
    obtain ⟨kde, hkde⟩ := Option.isSome_iff_exists.mp h
    rcases hE : evalBatch C.lnpostfn C.kdeEval kde (C.draws st.iterations)
      with e0 | res
    · have hms := mhStep_err_eq C ui kde st p a b e0 hE
      have hloop : sampleLoop C ui (k + 1) st p a b =
          ⟨{ rollback st st.iterations with
              failed_p := some (C.draws st.iterations) },
            p, a, b, some e0⟩ := by
        simp only [sampleLoop, hkde, hms]
      rw [hloop] at he
      simp at he
    · have hms := mhStep_ok_eq C ui kde st p a b res hE
      have herr : (mhStep C ui kde st p a b).err = none := by rw [hms]
      have hkde' : (mhStep C ui kde st p a b).st.kde.isSome = true := by
        rw [hms]; dsimp only; split <;> simp [hkde]
      have hstep : sampleLoop C ui (k + 1) st p a b =
          sampleLoop C ui k (mhStep C ui kde st p a b).st
            (mhStep C ui kde st p a b).p
            (mhStep C ui kde st p a b).lnpost
            (mhStep C ui kde st p a b).lnprop := by
        simp only [sampleLoop, hkde, herr]
      rw [hstep] at he ⊢
      obtain ⟨ih1, ih2, ih3, ih4, ih5⟩ := ih _ _ _ _ hkde' he
      refine ⟨?_, ?_, ?_, ?_, ?_⟩ <;>
        (first
          | (rw [ih1, hms])
          | (rw [ih2, hms])
          | (rw [ih3, hms])
          | (rw [ih4, hms])
          | (rw [ih5, hms]))

theorem sampleLoop_preserveRow (C : Ctx E D) (ui : ℕ) :
    ∀ (k : ℕ) (st : SamplerState D) (p : Ensemble) (a b : List ℚ),
      st.kde.isSome = true → ∀ i, i < st.iterations →
      (sampleLoop C ui k st p a b).st.acceptanceH.getD i [] =
        st.acceptanceH.getD i [] := by
  intro k
  induction k with
  | zero => intro st p a b h i hi; simp [sampleLoop]
  | succ k ih =>
    intro st p a b h i hi
    obtain ⟨kde, hkde⟩ := Option.isSome_iff_exists.mp h
    rcases hE : evalBatch C.lnpostfn C.kdeEval kde (C.draws st.iterations)
      with e0 | res
    · have hms := mhStep_err_eq C ui kde st p a b e0 hE
      have hloop : sampleLoop C ui (k + 1) st p a b =
          ⟨{ rollback st st.iterations with
              failed_p := some (C.draws st.iterations) },
            p, a, b, some e0⟩ := by
        simp only [sampleLoop, hkde, hms]
      rw [hloop]
      show (st.acceptanceH.take st.iterations).getD i [] = _
      exact getD_take _ _ _ _ hi
    · have hms := mhStep_ok_eq C ui kde st p a b res hE
      have herr : (mhStep C ui kde st p a b).err = none := by rw [hms]
      have hkde' : (mhStep C ui kde st p a b).st.kde.isSome = true := by
        rw [hms]; dsimp only; split <;> simp [hkde]
      have hit : (mhStep C ui kde st p a b).st.iterations =
          st.iterations + 1 := by rw [hms]
      have hstep : sampleLoop C ui (k + 1) st p a b =
          sampleLoop C ui k (mhStep C ui kde st p a b).st
            (mhStep C ui kde st p a b).p
            (mhStep C ui kde st p a b).lnpost
            (mhStep C ui kde st p a b).lnprop := by
        simp only [sampleLoop, hkde, herr]
      rw [hstep]
      have step1 : (mhStep C ui kde st p a b).st.acceptanceH.getD i [] =
          st.acceptanceH.getD i [] := by
        rw [hms]
        exact getD_set_ne _ _ _ _ _ (by omega)
      rw [ih _ _ _ _ hkde' i (by omega), step1]

theorem sampleLoop_frame (C : Ctx E D) (ui : ℕ) :
    ∀ (k : ℕ) (st : SamplerState D) (p : Ensemble) (a b : List ℚ),
      st.kde.isSome = true →
      st.acceptanceH.length = st.iterations + k →
      ∀ w, ((sampleLoop C ui k st p a b).lnpost.getD w 0 ≠ a.getD w 0 ∨
            (sampleLoop C ui k st p a b).lnprop.getD w 0 ≠ b.getD w 0) →
      ∃ i, st.iterations ≤ i ∧
        i < (sampleLoop C ui k st p a b).st.iterations ∧
        ((sampleLoop C ui k st p a b).st.acceptanceH.getD i []).getD w false =
          true := by
  intro k
  induction k with
  | zero => intro st p a b h hL w hw; simp [sampleLoop] at hw
  | succ k ih =>
    intro st p a b h hL w hw
    obtain ⟨kde, hkde⟩ := Option.isSome_iff_exists.mp h
    rcases hE : evalBatch C.lnpostfn C.kdeEval kde (C.draws st.iterations)
      with e0 | res
    · have hms := mhStep_err_eq C ui kde st p a b e0 hE
      have hloop : sampleLoop C ui (k + 1) st p a b =
          ⟨{ rollback st st.iterations with
              failed_p := some (C.draws st.iterations) },
            p, a, b, some e0⟩ := by
        simp only [sampleLoop, hkde, hms]
      rw [hloop] at hw
      simp at hw
    · have hms := mhStep_ok_eq C ui kde st p a b res hE
      have herr : (mhStep C ui kde st p a b).err = none := by rw [hms]
      have hkde' : (mhStep C ui kde st p a b).st.kde.isSome = true := by
        rw [hms]; dsimp only; split <;> simp [hkde]
      have hit : (mhStep C ui kde st p a b).st.iterations =
          st.iterations + 1 := by rw [hms]
      have hL' : (mhStep C ui kde st p a b).st.acceptanceH.length =
          (mhStep C ui kde st p a b).st.iterations + k := by
        rw [hms]; dsimp only; rw [List.length_set]; omega
      have hstep : sampleLoop C ui (k + 1) st p a b =
          sampleLoop C ui k (mhStep C ui kde st p a b).st
            (mhStep C ui kde st p a b).p
            (mhStep C ui kde st p a b).lnpost
            (mhStep C ui kde st p a b).lnprop := by
        simp only [sampleLoop, hkde, herr]
      rw [hstep] at hw ⊢
      by_cases hloc :
          (mhStep C ui kde st p a b).lnpost.getD w 0 = a.getD w 0 ∧
          (mhStep C ui kde st p a b).lnprop.getD w 0 = b.getD w 0
      · obtain ⟨i, hi1, hi2, hi3⟩ := ih _ _ _ _ hkde' hL' w (by
          rcases hw with hw | hw
          · exact Or.inl (by rwa [← hloc.1] at hw)
          · exact Or.inr (by rwa [← hloc.2] at hw))
        exact ⟨i, by omega, hi2, hi3⟩
      · have hacc : (acceptFrom C.npLogPos (C.us st.iterations)
            (mhRatios (res.map Prod.fst) a b (res.map Prod.snd))
            0).getD w false = true := by
          rcases not_and_or.mp hloc with hne | hne
          · refine updWhere_getD_ne (0 : ℚ) _ a (res.map Prod.fst) w ?_
            rw [hms] at hne
            exact hne
          · refine updWhere_getD_ne (0 : ℚ) _ b (res.map Prod.snd) w ?_
            rw [hms] at hne
            exact hne
        have hrow : (mhStep C ui kde st p a b).st.acceptanceH.getD
            st.iterations [] =
            acceptFrom C.npLogPos (C.us st.iterations)
              (mhRatios (res.map Prod.fst) a b (res.map Prod.snd)) 0 := by
          rw [hms]; dsimp only
          exact getD_set_self _ _ _ _ (by omega)
        have hpres := sampleLoop_preserveRow C ui k
          (mhStep C ui kde st p a b).st (mhStep C ui kde st p a b).p
          (mhStep C ui kde st p a b).lnpost (mhStep C ui kde st p a b).lnprop
          hkde' st.iterations (by omega)
        obtain ⟨hlow, _, _⟩ := sampleLoop_iter C ui k
          (mhStep C ui kde st p a b).st (mhStep C ui kde st p a b).p
          (mhStep C ui kde st p a b).lnpost (mhStep C ui kde st p a b).lnprop
          hkde'
        refine ⟨st.iterations, le_refl _, by omega, ?_⟩
        rw [hpres, hrow, hacc]

/- Characterizations of the phases of `sample`. -/

theorem ensureKde_kde (C : Ctx E D) (st0 : SamplerState D) (p : Ensemble) :
    (ensureKde C st0 p).1.kde = some (ensureKde C st0 p).2 := by
  cases h : st0.kde <;> simp [ensureKde, h]

theorem ensureKde_fields (C : Ctx E D) (st0 : SamplerState D) (p : Ensemble) :
    (ensureKde C st0 p).1.iterations = st0.iterations ∧
    (ensureKde C st0 p).1.chain = st0.chain ∧
    (ensureKde C st0 p).1.lnpostH = st0.lnpostH ∧
    (ensureKde C st0 p).1.lnpropH = st0.lnpropH ∧
    (ensureKde C st0 p).1.acceptanceH = st0.acceptanceH ∧
    (ensureKde C st0 p).1.failed_p = st0.failed_p ∧
    (ensureKde C st0 p).1.poolGen = st0.poolGen ∧
    (ensureKde C st0 p).1.processes = st0.processes ∧
    (ensureKde C st0 p).1.nwalkers = st0.nwalkers ∧
    (ensureKde C st0 p).1.dim = st0.dim := by
  cases h : st0.kde <;> simp [ensureKde, h]

theorem initVals_both (C : Ctx E D) (kde : D) (p : Ensemble)
    (l q : List ℚ) : initVals C kde p (some l) (some q) = .ok (l, q) := by
  simp [initVals]

theorem preExtend_fields (st1 : SamplerState D) (k : ℕ) :
    (preExtend st1 k).iterations = st1.iterations ∧
    (preExtend st1 k).failed_p = st1.failed_p ∧
    (preExtend st1 k).poolGen = st1.poolGen ∧
    (preExtend st1 k).processes = st1.processes ∧
    (preExtend st1 k).nwalkers = st1.nwalkers ∧
    (preExtend st1 k).dim = st1.dim ∧
    (preExtend st1 k).kde = st1.kde := by
  simp [preExtend]

theorem preExtend_lengths (st1 : SamplerState D) (k : ℕ) :
    (preExtend st1 k).chain.length = st1.chain.length + k ∧
    (preExtend st1 k).lnpostH.length = st1.lnpostH.length + k ∧
    (preExtend st1 k).lnpropH.length = st1.lnpropH.length + k ∧
    (preExtend st1 k).acceptanceH.length = st1.acceptanceH.length + k := by
  simp [preExtend]

theorem sample_err_eq (C : Ctx E D) (st0 : SamplerState D)
    (p0 : Option Ensemble) (l0 q0 : Option (List ℚ)) (k ui : ℕ) (e : E)
    (hIV : initVals C (ensureKde C st0 (p0.getD C.initDraw)).2
      (p0.getD C.initDraw) l0 q0 = .error e) :
    sample C st0 p0 l0 q0 k ui =
      ⟨(ensureKde C st0 (p0.getD C.initDraw)).1, p0.getD C.initDraw,
        [], [], some e, p0, l0, q0⟩ := by
  simp [sample, hIV]

theorem sample_ok_eq (C : Ctx E D) (st0 : SamplerState D)
    (p0 : Option Ensemble) (l0 q0 : Option (List ℚ)) (k ui : ℕ)
    (lnpost lnprop : List ℚ)
    (hIV : initVals C (ensureKde C st0 (p0.getD C.initDraw)).2
      (p0.getD C.initDraw) l0 q0 = .ok (lnpost, lnprop)) :
    sample C st0 p0 l0 q0 k ui =
      ⟨(sampleLoop C ui k (preExtend (ensureKde C st0 (p0.getD C.initDraw)).1 k)
          (p0.getD C.initDraw) lnpost lnprop).st,
       (sampleLoop C ui k (preExtend (ensureKde C st0 (p0.getD C.initDraw)).1 k)
          (p0.getD C.initDraw) lnpost lnprop).p,
       (sampleLoop C ui k (preExtend (ensureKde C st0 (p0.getD C.initDraw)).1 k)
          (p0.getD C.initDraw) lnpost lnprop).lnpost,
       (sampleLoop C ui k (preExtend (ensureKde C st0 (p0.getD C.initDraw)).1 k)
          (p0.getD C.initDraw) lnpost lnprop).lnprop,
       (sampleLoop C ui k (preExtend (ensureKde C st0 (p0.getD C.initDraw)).1 k)
          (p0.getD C.initDraw) lnpost lnprop).err,
       p0,
       l0.map fun _ =>
         (sampleLoop C ui k (preExtend (ensureKde C st0 (p0.getD C.initDraw)).1 k)
            (p0.getD C.initDraw) lnpost lnprop).lnpost,
       q0.map fun _ =>
         (sampleLoop C ui k (preExtend (ensureKde C st0 (p0.getD C.initDraw)).1 k)
            (p0.getD C.initDraw) lnpost lnprop).lnprop⟩ := by
  simp [sample, hIV]

theorem sample_iter (C : Ctx E D) (st0 : SamplerState D)
    (p0 : Option Ensemble) (l0 q0 : Option (List ℚ)) (k ui : ℕ) :
    st0.iterations ≤ (sample C st0 p0 l0 q0 k ui).st.iterations ∧
    (sample C st0 p0 l0 q0 k ui).st.iterations ≤ st0.iterations + k ∧
    ((sample C st0 p0 l0 q0 k ui).err = none →
      (sample C st0 p0 l0 q0 k ui).st.iterations = st0.iterations + k) := by
  rcases hIV : initVals C (ensureKde C st0 (p0.getD C.initDraw)).2
      (p0.getD C.initDraw) l0 q0 with e | ⟨lnpost, lnprop⟩
  · rw [sample_err_eq C st0 p0 l0 q0 k ui e hIV]
    have h := (ensureKde_fields C st0 (p0.getD C.initDraw)).1
    simp [h]
  · rw [sample_ok_eq C st0 p0 l0 q0 k ui lnpost lnprop hIV]
    have hek := (ensureKde_fields C st0 (p0.getD C.initDraw)).1
    have hpe := (preExtend_fields (ensureKde C st0 (p0.getD C.initDraw)).1 k).1
    have hkde : (preExtend (ensureKde C st0 (p0.getD C.initDraw)).1 k).kde.isSome
        = true := by
      rw [(preExtend_fields _ k).2.2.2.2.2.2,
        ensureKde_kde C st0 (p0.getD C.initDraw)]
      rfl
    obtain ⟨h1, h2, h3⟩ := sampleLoop_iter C ui k
      (preExtend (ensureKde C st0 (p0.getD C.initDraw)).1 k)
      (p0.getD C.initDraw) lnpost lnprop hkde
    rw [hpe, hek] at h1 h2 h3
    exact ⟨h1, h2, fun he => (h3 he).1⟩

/- Bounds on acceptance rates and the burn-in interval adjustment. -/

theorem boolQ_bounds (b : Bool) : 0 ≤ boolQ b ∧ boolQ b ≤ 1 := by
  cases b <;> simp [boolQ]

theorem sum_bounds :
    ∀ l : List ℚ, (∀ x ∈ l, 0 ≤ x ∧ x ≤ 1) →
      0 ≤ l.sum ∧ l.sum ≤ (l.length : ℚ)
  | [], _ => by simp
  | x :: xs, h => by
    obtain ⟨hx0, hx1⟩ := h x (by simp)
    obtain ⟨h1, h2⟩ := sum_bounds xs (fun y hy => h y (by simp [hy]))
    simp only [List.sum_cons, List.length_cons]
    push_cast
    constructor <;> linarith

theorem npMean_boolQ_bounds (l : List Bool) (m : ℚ)
    (h : npMean (l.map boolQ) = some m) : 0 ≤ m ∧ m ≤ 1 := by
  by_cases he : (l.map boolQ).isEmpty
  · simp [npMean, he] at h
  · simp only [npMean, he, if_neg, Bool.false_eq_true, not_false_eq_true,
      if_false, Option.some_inj] at h
    obtain ⟨h1, h2⟩ := sum_bounds (l.map boolQ)
      (by intro x hx
          obtain ⟨b, _, rfl⟩ := List.mem_map.mp hx
          exact boolQ_bounds b)
    have hlen : 0 < ((l.map boolQ).length : ℚ) := by
      have : l.map boolQ ≠ [] := by
        intro hnil; rw [hnil] at he; simp at he
      have := List.length_pos.mpr this
      exact_mod_cast this
    subst h
    exact ⟨div_nonneg h1 (le_of_lt hlen), (div_le_one hlen).mpr h2⟩

theorem acceptanceRates_bounds (hist : List (List Bool)) (w n : ℕ) :
    ∀ x ∈ acceptanceRates hist w n, 0 ≤ x ∧ x ≤ 1 := by
  intro x hx
  simp only [acceptanceRates, List.mem_map] at hx
  obtain ⟨j, _, rfl⟩ := hx
  by_cases hlen : (pyTakeLast hist w).length = 0
  · simp [hlen]
  · obtain ⟨h1, h2⟩ := sum_bounds
      ((pyTakeLast hist w).map fun row => boolQ (row.getD j false))
      (by intro y hy
          obtain ⟨row, _, rfl⟩ := List.mem_map.mp hy
          exact boolQ_bounds _)
    have hlen' : 0 < ((pyTakeLast hist w).length : ℚ) := by
      have : 0 < (pyTakeLast hist w).length := Nat.pos_of_ne_zero hlen
      exact_mod_cast this
    rw [List.length_map] at h2
    exact ⟨div_nonneg h1 (le_of_lt hlen'), (div_le_one hlen').mpr h2⟩

theorem mem_insertSorted :
    ∀ (x y : ℚ) (l : List ℚ), x ∈ insertSorted y l → x = y ∨ x ∈ l
  | x, y, [] => by simp [insertSorted]
  | x, y, z :: zs => by
    simp only [insertSorted]
    split
    · intro h; simpa using h
    · intro h
      rcases List.mem_cons.mp h with h | h
      · simp [h]
      · rcases mem_insertSorted x y zs h with h | h
        · simp [h]
        · simp [h]

theorem mem_sortQ : ∀ (x : ℚ) (l : List ℚ), x ∈ sortQ l → x ∈ l
  | x, [], h => by simp [sortQ] at h
  | x, y :: ys, h => by
    rcases mem_insertSorted x y (sortQ ys) (by simpa [sortQ] using h) with h | h
    · simp [h]
    · simpa using Or.inr (mem_sortQ x ys h)

theorem pyIntNat_pos (q : ℚ) (h : 1 ≤ q) : 1 ≤ pyIntNat q := by
  have h1 : (1 : ℤ) ≤ ⌊q⌋ := by
    rw [Int.le_floor]; exact_mod_cast h
  unfold pyIntNat
  omega

theorem adjustInterval_pos (hist : List (List Bool)) (n t : ℕ)
    (h : adjustInterval hist n = some t) : 1 ≤ t := by
  unfold adjustInterval at h
  rcases hlast : hist.getLast? with _ | lastRow
  · rw [hlast] at h; simp at h
  · simp only [hlast] at h
    rcases hm : npMean (lastRow.map boolQ) with _ | m
    · rw [hm] at h; simp at h
    · simp only [hm] at h
      by_cases hm0 : m = 0
      · simp [hm0] at h
      · obtain ⟨hm1, hm2⟩ := npMean_boolQ_bounds lastRow m hm
        have hmpos : 0 < m := lt_of_le_of_ne hm1 (Ne.symm hm0)
        have hwin : 1 ≤ pyIntNat (10 / m) :=
          pyIntNat_pos _ ((one_le_div hmpos).mpr (by linarith))
        simp only [hm0, if_false] at h
        rcases hlr : (sortQ (acceptanceRates hist (pyIntNat (10 / m)) n)).get?
            (pyIntNat ((n : ℚ) / 10)) with _ | lr
        · rw [hlr] at h; simp at h
        · rw [hlr] at h
          have hlrmem : lr ∈ acceptanceRates hist (pyIntNat (10 / m)) n :=
            mem_sortQ _ _ (List.get?_mem hlr)
          obtain ⟨_, hlr1⟩ := acceptanceRates_bounds hist _ n lr hlrmem
          by_cases hlr0 : 0 < lr
          · simp only [hlr0, if_true, Option.some.injEq] at h
            have : 1 ≤ pyIntNat (1 / lr) :=
              pyIntNat_pos _ ((one_le_div hlr0).mpr hlr1)
            omega
          · simp only [hlr0, if_false, Option.some.injEq] at h
            omega

/- Termination and budget lemmas for the burn-in loop. -/

theorem burninLoop_guard (C : Ctx E D) (ksPval : List ℚ → List ℚ → ℚ)
    (ui m fuel t : ℕ) (st : SamplerState D) (p : Ensemble)
    (l q : Option (List ℚ)) (h : m < st.iterations + t) :
    burninLoop C ksPval ui (some m) (fuel + 1) t st p l q =
      some ⟨st, p, l, q, false, none⟩ := by
  simp [burninLoop, h]

theorem burninLoop_total (C : Ctx E D) (ksPval : List ℚ → List ℚ → ℚ)
    (ui m : ℕ) :
    ∀ (fuel t : ℕ) (st : SamplerState D) (p : Ensemble)
      (l q : Option (List ℚ)),
      st.iterations ≤ m → m - st.iterations + 2 ≤ fuel →
      (t = 0 → m - st.iterations + 3 ≤ fuel) →
      ∃ out, burninLoop C ksPval ui (some m) fuel t st p l q = some out ∧
        out.st.iterations ≤ m := by
  intro fuel
  induction fuel with
  | zero => intro t st p l q h1 h2 h3; omega
  | succ fuel ih =>
    intro t st p l q h1 h2 h3
    by_cases hg : m < st.iterations + t
    · exact ⟨_, burninLoop_guard C ksPval ui m fuel t st p l q hg, h1⟩
    · have hbound : st.iterations + t ≤ m := by omega
      obtain ⟨hs1, hs2, hs3⟩ := sample_iter C st (some p) l q t ui
      rcases herr : (sample C st (some p) l q t ui).err with _ | e
      · -- the pass completed; K-S test and possibly adapt
        have hit : (sample C st (some p) l q t ui).st.iterations =
            st.iterations + t := hs3 herr
        by_cases hks : ksPassAll ksPval st.dim p
            (sample C st (some p) l q t ui).p
        · refine ⟨⟨(sample C st (some p) l q t ui).st,
            (sample C st (some p) l q t ui).p,
            some (sample C st (some p) l q t ui).lnpost,
            some (sample C st (some p) l q t ui).lnprop, true, none⟩, ?_, ?_⟩
          · simp only [burninLoop, hg, decide_eq_true_eq, if_false, herr, hks,
              if_true]
          · simp only [hit]; omega
        · rcases hadj : adjustInterval
              (sample C st (some p) l q t ui).st.acceptanceH
              (sample C st (some p) l q t ui).st.nwalkers with _ | tNew
          · refine ⟨⟨(sample C st (some p) l q t ui).st,
              (sample C st (some p) l q t ui).p,
              some (sample C st (some p) l q t ui).lnpost,
              some (sample C st (some p) l q t ui).lnprop, false,
              some .adjustFail⟩, ?_, ?_⟩
            · simp only [burninLoop, hg, decide_eq_true_eq, if_false, herr,
                hks, hadj, if_true, Bool.false_eq_true]
            · simp only [hit]; omega
          · have htN : 1 ≤ tNew := adjustInterval_pos _ _ _ hadj
            have hrec : m - (sample C st (some p) l q t ui).st.iterations
                + 2 ≤ fuel := by
              rcases Nat.eq_zero_or_pos t with ht0 | ht0
              · have := h3 ht0; omega
              · omega
            obtain ⟨out, hout, houtle⟩ := ih tNew
              (sample C st (some p) l q t ui).st
              (sample C st (some p) l q t ui).p
              (some (sample C st (some p) l q t ui).lnpost)
              (some (sample C st (some p) l q t ui).lnprop)
              (by omega)
              hrec
              (fun h0 => absurd h0 (by omega))
            refine ⟨out, ?_, houtle⟩
            simp only [burninLoop, hg, decide_eq_true_eq, if_false, herr, hks,
              hadj, Bool.false_eq_true]
            exact hout
      · -- the exception from `sample` propagates: the call terminates
        refine ⟨⟨(sample C st (some p) l q t ui).st,
          (sample C st (some p) l q t ui).p,
          some (sample C st (some p) l q t ui).lnpost,
          some (sample C st (some p) l q t ui).lnprop, false,
          some (.fromSample e)⟩, ?_, ?_⟩
        · simp only [burninLoop, hg, decide_eq_true_eq, if_false, herr]
        · dsimp only; omega

/- Claim theorems. -/

/-- Claim C2, counterexample: `rollback(0)` on a state with one committed
iteration truncates all four history arrays to length `0` as the claim says,
but the iteration counter stays `1` — the source's `rollback` never resets
`self.iterations`, so the claim's "resets the iteration counter to k" fails
at this input. -/
theorem claim_C2_counterexample :
    (rollback stOne 0).chain.length = 0 ∧
    (rollback stOne 0).lnpostH.length = 0 ∧
    (rollback stOne 0).lnpropH.length = 0 ∧
    (rollback stOne 0).acceptanceH.length = 0 ∧
    (rollback stOne 0).iterations ≠ 0 := by
  refine ⟨rfl, rfl, rfl, rfl, ?_⟩
  decide

/-- Claim C2, amended: for every `k`, `rollback(k)` truncates all four
parallel history arrays to length `k` (to `min k length`, as Python slicing
caps at the array length) and leaves the iteration counter unchanged; the
counter equals `k` only because every internal call site passes
`k = self.iterations`, which is how a subsequent `sample` call continues
iteration numbering from `k` there. -/
theorem claim_C2_rollback_truncates (st : SamplerState D) (k : ℕ) :
    (rollback st k).chain.length = min k st.chain.length ∧
    (rollback st k).lnpostH.length = min k st.lnpostH.length ∧
    (rollback st k).lnpropH.length = min k st.lnpropH.length ∧
    (rollback st k).acceptanceH.length = min k st.acceptanceH.length ∧
    (rollback st k).iterations = st.iterations := by
  simp [rollback]

/-- Claim C4: in every iteration of `sample` the per-walker
Metropolis-Hastings log-ratio is `r = lnpost_p - lnpost + lnprop - lnprop_p`,
and every walker whose `r` is strictly positive has `True` stored in the
iteration's acceptance row, for every uniform-draw stream (the context `C`,
and with it `C.us`, is universally quantified), so such walkers are accepted
deterministically. -/
theorem claim_C4_deterministic_accept (C : Ctx E D) (ui : ℕ) (kde : D)
    (st : SamplerState D) (p : Ensemble) (lnpost lnprop : List ℚ)
    (res : List (ℚ × ℚ)) (w : ℕ)
    (hE : evalBatch C.lnpostfn C.kdeEval kde (C.draws st.iterations) =
      .ok res)
    (hl1 : lnpost.length = res.length)
    (hl2 : lnprop.length = res.length)
    (hw : w < res.length)
    (hrow : st.iterations < st.acceptanceH.length)
    (hr : 0 < (res.map Prod.fst).getD w 0 - lnpost.getD w 0 +
      lnprop.getD w 0 - (res.map Prod.snd).getD w 0) :
    (((mhStep C ui kde st p lnpost lnprop).st.acceptanceH.getD
        st.iterations []).getD w false) = true := by
  rw [mhStep_ok_eq C ui kde st p lnpost lnprop res hE]
  dsimp only
  rw [getD_set_self _ _ _ _ hrow]
  have hwr : w < (mhRatios (res.map Prod.fst) lnpost lnprop
      (res.map Prod.snd)).length := by
    rw [mhRatios_length]
    simp only [List.length_map]
    omega
  refine acceptFrom_getD_pos C.npLogPos (C.us st.iterations) _ 0 w hwr ?_
  rw [mhRatios_getD (res.map Prod.fst) lnpost lnprop (res.map Prod.snd) w
    (by simpa using hw) (by omega) (by omega) (by simpa using hw)]
  exact hr

unseal Rat.mul Rat.add Rat.sub Rat.inv in
/-- Claim C4, witness: a concrete one-walker step in which the proposed
point improves the log-posterior (`r = 1 > 0`) is accepted. -/
theorem claim_C4_witness :
    (((mhStep ctxOk 10 () stPre [[0]] [-1] [0]).st.acceptanceH.getD 0
        []).getD 0 false) = true :=
  claim_C4_deterministic_accept ctxOk 10 () stPre [[0]] [-1] [0] [(0, 0)] 0
    rfl (by decide) (by decide) (by decide) (by decide) (by decide)

unseal Rat.mul Rat.add Rat.sub Rat.inv in
/-- Claim C5, counterexample: the probabilistic branch has no guard for a
zero uniform draw.  In this concrete run the single walker's log-ratio is
`-1` (so it sits in the `r ≤ 0` branch), the uniform draw is exactly `0`,
and the walker is nevertheless accepted, because `np.log 0 = -inf` and
`-1 > -inf`; the claim says a zero draw never results in acceptance. -/
theorem claim_C5_counterexample :
    ctxZero.us 0 0 = 0 ∧
    mhRatios [-1] [0] [0] [0] = [-1] ∧ (-1 : ℚ) < 0 ∧
    (sample ctxZero stInit (some [[0]]) (some [0]) (some [0]) 1
      10).st.acceptanceH = [[true]] := by
  refine ⟨rfl, by decide, by decide, by decide⟩

/-- Claim C5, amended: a uniform draw equal to exactly zero always results
in acceptance for a walker of the probabilistic branch (`r ≤ 0`): numpy's
`log(0)` evaluates to `-inf`, every representable log-ratio compares
greater, and the source contains no guard treating a zero draw as
non-accept. -/
theorem claim_C5_zero_draw_accepts (npLog : ℚ → ℚ) (rs : List ℚ) (j w : ℕ)
    (hw : w < rs.length) (_hr : rs.getD w 0 ≤ 0) :
    (acceptFrom npLog (fun _ => 0) rs j).getD w false = true :=
  acceptFrom_zero_draws npLog rs j w hw

unseal Rat.mul Rat.add Rat.sub Rat.inv in
/-- Claim C5, amended witness: the walker with log-ratio `-1` is accepted
on a zero uniform draw. -/
theorem claim_C5_witness :
    (acceptFrom (fun q => q) (fun _ => 0) [-1] 0).getD 0 false = true :=
  claim_C5_zero_draw_accepts (fun q => q) [-1] 0 0 (by decide) (by decide)

unseal Rat.mul Rat.add Rat.sub Rat.inv in
/-- Claim C7, counterexample: the source computes the burn-in window and
the next test interval with Python's truncating `int()`, not with `round`.
On a history whose last (and only) iteration accepted 3 of 5 walkers the
mean acceptance is `3/5`, the low-rate decile is `0`, and the source's next
interval is `int(10/(3/5)) = 16`, while the claim's rounding formula gives
`round(16.66…) = 17`. -/
theorem claim_C7_counterexample :
    adjustInterval histC7 5 = some 16 ∧
    adjustIntervalClaim histC7 5 = some 17 ∧
    adjustInterval histC7 5 ≠ adjustIntervalClaim histC7 5 := by
  refine ⟨by decide, by decide, by decide⟩

/-- Claim C7, amended: when a burn-in test cycle fails, the next interval
is computed from a window `w = int(10 / mean(last-iteration acceptance))`
(truncating), per-walker rates averaged over the last `w` iterations, the
decile walker at index `int(0.1 × nwalkers)` of the sorted rates as
`low_rate`, and the next interval is `int(1/low_rate)` if `low_rate > 0`,
else `w` — with `int()` the floor of these nonnegative quantities, not
`round`. -/
theorem claim_C7_interval_formula (hist : List (List Bool)) (n : ℕ)
    (row : List Bool) (m lr : ℚ)
    (hrow : hist.getLast? = some row)
    (hm : npMean (row.map boolQ) = some m)
    (hm0 : m ≠ 0)
    (hlr : (sortQ (acceptanceRates hist (pyIntNat (10 / m)) n)).get?
      (pyIntNat ((n : ℚ) / 10)) = some lr) :
    adjustInterval hist n =
      some (if 0 < lr then pyIntNat (1 / lr) else pyIntNat (10 / m)) := by
  simp only [adjustInterval, hrow, hm, if_neg hm0, hlr]
  split <;> rfl

unseal Rat.mul Rat.add Rat.sub Rat.inv in
/-- Claim C7, amended witness: on the 3-of-5 history the formula yields the
window fallback `int(10/(3/5)) = 16`. -/
theorem claim_C7_witness :
    adjustInterval histC7 5 = some (pyIntNat ((10 : ℚ) / (3/5))) := by
  have h := claim_C7_interval_formula histC7 5
    [true, true, true, false, false] (3/5) 0 (by decide) (by decide)
    (by decide) (by decide)
  simpa using h

/-- Claim C8: during `sample`, the proposal density is refit — replaced by
a brand-new density fitted to the post-step ensemble — exactly at those
completed steps whose post-step iteration count is a multiple of
`update_interval`, and it is left untouched at every other step (the
`0 < update_interval` hypothesis reflects that Python raises on `% 0`). -/
theorem claim_C8_refit_interval (C : Ctx E D) (ui : ℕ) (_hui : 0 < ui)
    (kde : D) (st : SamplerState D) (p : Ensemble)
    (lnpost lnprop : List ℚ)
    (hok : (mhStep C ui kde st p lnpost lnprop).err = none) :
    (mhStep C ui kde st p lnpost lnprop).st.kde =
      (if (st.iterations + 1) % ui = 0
       then some (C.fit ((mhStep C ui kde st p lnpost lnprop).p))
       else st.kde) := by
  rcases hE : evalBatch C.lnpostfn C.kdeEval kde (C.draws st.iterations)
    with e | res
  · rw [mhStep_err_eq C ui kde st p lnpost lnprop e hE] at hok
    simp at hok
  · rw [mhStep_ok_eq C ui kde st p lnpost lnprop res hE]

unseal Rat.mul Rat.add Rat.sub Rat.inv in
/-- Claim C8, witness: with `update_interval = 1` the step's post-step
count `1` is a multiple of the interval, so the density is refit to the
post-step ensemble. -/
theorem claim_C8_witness :
    (mhStep ctxOk 1 () stPre [[0]] [0] [0]).st.kde =
      (if (stPre.iterations + 1) % 1 = 0
       then some (ctxOk.fit ((mhStep ctxOk 1 () stPre [[0]] [0] [0]).p))
       else stPre.kde) :=
  claim_C8_refit_interval ctxOk 1 (by decide) () stPre [[0]] [0] [0]
    (by decide)

/-- Claim C1: when the batch evaluation of proposed positions raises during
an iteration of `sample` (with caller-supplied initial log-values, so the
loop's batch evaluation is the only evaluation), the four chain histories
are rolled back to the last fully committed iteration — their lengths again
equal the iteration counter, which stayed within the committed range — the
offending proposed batch is stored and exposed via `failed_p` (it is
exactly the batch whose evaluation produced the re-raised error `e`), and
the worker pool is replaced when one is in use, leaving the Sampler
consistent and usable. -/
theorem claim_C1_rollback_on_eval_error (C : Ctx E D) (st0 : SamplerState D)
    (p0 : Ensemble) (l0 q0 : List ℚ) (k ui : ℕ) (e : E)
    (hlen1 : st0.chain.length = st0.iterations)
    (hlen2 : st0.lnpostH.length = st0.iterations)
    (hlen3 : st0.lnpropH.length = st0.iterations)
    (hlen4 : st0.acceptanceH.length = st0.iterations)
    (herr : (sample C st0 (some p0) (some l0) (some q0) k ui).err = some e) :
    ((sample C st0 (some p0) (some l0) (some q0) k ui).st.chain.length =
       (sample C st0 (some p0) (some l0) (some q0) k ui).st.iterations ∧
     (sample C st0 (some p0) (some l0) (some q0) k ui).st.lnpostH.length =
       (sample C st0 (some p0) (some l0) (some q0) k ui).st.iterations ∧
     (sample C st0 (some p0) (some l0) (some q0) k ui).st.lnpropH.length =
       (sample C st0 (some p0) (some l0) (some q0) k ui).st.iterations ∧
     (sample C st0 (some p0) (some l0) (some q0) k ui).st.acceptanceH.length =
       (sample C st0 (some p0) (some l0) (some q0) k ui).st.iterations) ∧
    (sample C st0 (some p0) (some l0) (some q0) k ui).st.failed_p =
      some (C.draws
        (sample C st0 (some p0) (some l0) (some q0) k ui).st.iterations) ∧
    (∃ kde, (sample C st0 (some p0) (some l0) (some q0) k ui).st.kde =
        some kde ∧
      evalBatch C.lnpostfn C.kdeEval kde
        (C.draws
          (sample C st0 (some p0) (some l0) (some q0) k ui).st.iterations) =
        .error e) ∧
    (sample C st0 (some p0) (some l0) (some q0) k ui).st.poolGen =
      (if st0.processes ≠ some 1 then st0.poolGen + 1 else st0.poolGen) ∧
    st0.iterations ≤
      (sample C st0 (some p0) (some l0) (some q0) k ui).st.iterations ∧
    (sample C st0 (some p0) (some l0) (some q0) k ui).st.iterations ≤
      st0.iterations + k := by
  have hIV : initVals C
      (ensureKde C st0 ((some p0).getD C.initDraw)).2
      ((some p0).getD C.initDraw) (some l0) (some q0) = .ok (l0, q0) :=
    initVals_both C _ _ l0 q0
  have hEq := sample_ok_eq C st0 (some p0) (some l0) (some q0) k ui l0 q0 hIV
  rw [hEq] at herr ⊢
  dsimp only at herr ⊢
  obtain ⟨hf1, hf2, hf3, hf4, hf5, hf6, hf7, hf8, hf9, hf10⟩ :=
    ensureKde_fields C st0 ((some p0).getD C.initDraw)
  obtain ⟨hp1, hp2, hp3, hp4, hp5, hp6, hp7⟩ :=
    preExtend_fields (ensureKde C st0 ((some p0).getD C.initDraw)).1 k
  obtain ⟨hq1, hq2, hq3, hq4⟩ :=
    preExtend_lengths (ensureKde C st0 ((some p0).getD C.initDraw)).1 k
  have hkde : (preExtend (ensureKde C st0 ((some p0).getD C.initDraw)).1
      k).kde.isSome = true := by
    rw [hp7, ensureKde_kde]; rfl
  have hit : (preExtend (ensureKde C st0 ((some p0).getD C.initDraw)).1
      k).iterations = st0.iterations := by rw [hp1, hf1]
  obtain ⟨hL1, hL2, hL3, hL4⟩ := sampleLoop_lengths C ui k _
    ((some p0).getD C.initDraw) l0 q0 hkde
    (by rw [hq1, hf2, hlen1, ← hit]) (by rw [hq2, hf3, hlen2, ← hit])
    (by rw [hq3, hf4, hlen3, ← hit]) (by rw [hq4, hf5, hlen4, ← hit])
  obtain ⟨hE1, hE2, hE3, hE4⟩ := sampleLoop_err_details C ui k _
    ((some p0).getD C.initDraw) l0 q0 hkde e herr
  obtain ⟨hI1, hI2, _⟩ := sampleLoop_iter C ui k _
    ((some p0).getD C.initDraw) l0 q0 hkde
  refine ⟨⟨hL1, hL2, hL3, hL4⟩, hE1, hE2, ?_, ?_, ?_⟩
  · rw [hE3, hp4, hf8, hp3, hf7]
  · rw [← hit]; exact hI1
  · rw [← hit]; exact hI2

/-- Claim C3: every successful `sample(iterations=k)` call grows the chain
history by exactly `k` rows, keeps the four parallel histories at equal
lengths, and leaves that common length equal to the iteration counter. -/
theorem claim_C3_lengths (C : Ctx E D) (st0 : SamplerState D)
    (p0 : Option Ensemble) (l0 q0 : Option (List ℚ)) (k ui : ℕ)
    (hlen1 : st0.chain.length = st0.iterations)
    (hlen2 : st0.lnpostH.length = st0.iterations)
    (hlen3 : st0.lnpropH.length = st0.iterations)
    (hlen4 : st0.acceptanceH.length = st0.iterations)
    (hok : (sample C st0 p0 l0 q0 k ui).err = none) :
    (sample C st0 p0 l0 q0 k ui).st.chain.length = st0.chain.length + k ∧
    (sample C st0 p0 l0 q0 k ui).st.lnpostH.length =
      (sample C st0 p0 l0 q0 k ui).st.chain.length ∧
    (sample C st0 p0 l0 q0 k ui).st.lnpropH.length =
      (sample C st0 p0 l0 q0 k ui).st.chain.length ∧
    (sample C st0 p0 l0 q0 k ui).st.acceptanceH.length =
      (sample C st0 p0 l0 q0 k ui).st.chain.length ∧
    (sample C st0 p0 l0 q0 k ui).st.chain.length =
      (sample C st0 p0 l0 q0 k ui).st.iterations := by
  rcases hIV : initVals C (ensureKde C st0 (p0.getD C.initDraw)).2
      (p0.getD C.initDraw) l0 q0 with e | ⟨lnpost, lnprop⟩
  · rw [sample_err_eq C st0 p0 l0 q0 k ui e hIV] at hok
    simp at hok
  · have hEq := sample_ok_eq C st0 p0 l0 q0 k ui lnpost lnprop hIV
    rw [hEq] at hok ⊢
    dsimp only at hok ⊢
    obtain ⟨hf1, hf2, hf3, hf4, hf5, hf6, hf7, hf8, hf9, hf10⟩ :=
      ensureKde_fields C st0 (p0.getD C.initDraw)
    obtain ⟨hp1, hp2, hp3, hp4, hp5, hp6, hp7⟩ :=
      preExtend_fields (ensureKde C st0 (p0.getD C.initDraw)).1 k
    obtain ⟨hq1, hq2, hq3, hq4⟩ :=
      preExtend_lengths (ensureKde C st0 (p0.getD C.initDraw)).1 k
    have hkde : (preExtend (ensureKde C st0 (p0.getD C.initDraw)).1
        k).kde.isSome = true := by
      rw [hp7, ensureKde_kde]; rfl
    have hit : (preExtend (ensureKde C st0 (p0.getD C.initDraw)).1
        k).iterations = st0.iterations := by rw [hp1, hf1]
    obtain ⟨hL1, hL2, hL3, hL4⟩ := sampleLoop_lengths C ui k _
      (p0.getD C.initDraw) lnpost lnprop hkde
      (by rw [hq1, hf2, hlen1, ← hit]) (by rw [hq2, hf3, hlen2, ← hit])
      (by rw [hq3, hf4, hlen3, ← hit]) (by rw [hq4, hf5, hlen4, ← hit])
    obtain ⟨hI1, hI2, hI3⟩ := sampleLoop_iter C ui k _
      (p0.getD C.initDraw) lnpost lnprop hkde
    obtain ⟨hI3', _⟩ := hI3 hok
    refine ⟨?_, by rw [hL2, hL1], by rw [hL3, hL1], by rw [hL4, hL1], hL1⟩
    rw [hL1, hI3', hit, hlen1]

/-- Claim C9: the caller-supplied `lnpost0`/`lnprop0` arrays are mutated in
place — after the call their contents are the final working log-values, in
which only walkers that accepted some move during the call differ from the
supplied entries (any changed entry is witnessed by a `True` acceptance
flag stored in some iteration of this call) — whereas the caller's `p0`
array is copied on entry and its contents are never mutated. -/
theorem claim_C9_in_place_mutation (C : Ctx E D) (st0 : SamplerState D)
    (p0 : Ensemble) (l0 q0 : List ℚ) (k ui : ℕ)
    (hlen4 : st0.acceptanceH.length = st0.iterations) :
    (sample C st0 (some p0) (some l0) (some q0) k ui).callerP0 = some p0 ∧
    (sample C st0 (some p0) (some l0) (some q0) k ui).callerLnpost0 =
      some (sample C st0 (some p0) (some l0) (some q0) k ui).lnpost ∧
    (sample C st0 (some p0) (some l0) (some q0) k ui).callerLnprop0 =
      some (sample C st0 (some p0) (some l0) (some q0) k ui).lnprop ∧
    (∀ w,
      ((sample C st0 (some p0) (some l0) (some q0) k ui).lnpost.getD w 0 ≠
         l0.getD w 0 ∨
       (sample C st0 (some p0) (some l0) (some q0) k ui).lnprop.getD w 0 ≠
         q0.getD w 0) →
      ∃ i, st0.iterations ≤ i ∧
        i < (sample C st0 (some p0) (some l0) (some q0) k ui).st.iterations ∧
        (((sample C st0 (some p0) (some l0) (some q0) k
            ui).st.acceptanceH.getD i []).getD w false) = true) := by
  have hIV : initVals C
      (ensureKde C st0 ((some p0).getD C.initDraw)).2
      ((some p0).getD C.initDraw) (some l0) (some q0) = .ok (l0, q0) :=
    initVals_both C _ _ l0 q0
  have hEq := sample_ok_eq C st0 (some p0) (some l0) (some q0) k ui l0 q0 hIV
  rw [hEq]
  dsimp only
  obtain ⟨hf1, hf2, hf3, hf4, hf5, hf6, hf7, hf8, hf9, hf10⟩ :=
    ensureKde_fields C st0 ((some p0).getD C.initDraw)
  obtain ⟨hp1, hp2, hp3, hp4, hp5, hp6, hp7⟩ :=
    preExtend_fields (ensureKde C st0 ((some p0).getD C.initDraw)).1 k
  obtain ⟨hq1, hq2, hq3, hq4⟩ :=
    preExtend_lengths (ensureKde C st0 ((some p0).getD C.initDraw)).1 k
  have hkde : (preExtend (ensureKde C st0 ((some p0).getD C.initDraw)).1
      k).kde.isSome = true := by
    rw [hp7, ensureKde_kde]; rfl
  have hit : (preExtend (ensureKde C st0 ((some p0).getD C.initDraw)).1
      k).iterations = st0.iterations := by rw [hp1, hf1]
  refine ⟨rfl, rfl, rfl, ?_⟩
  intro w hw
  have := sampleLoop_frame C ui k
    (preExtend (ensureKde C st0 ((some p0).getD C.initDraw)).1 k)
    ((some p0).getD C.initDraw) l0 q0 hkde
    (by rw [hq4, hf5, hlen4, ← hit]) w hw
  rwa [hit] at this

/-- Claim C10: when `lnpost0` or `lnprop0` is missing and the evaluation of
the initial positions raises, `sample` propagates that exception with the
four chain histories, the iteration counter, the `failed_p` diagnostic and
the worker pool all unchanged (the failure happens before any history
mutation, outside the loop's rollback handler). -/
theorem claim_C10_init_eval_error (C : Ctx E D) (st0 : SamplerState D)
    (p0 : Option Ensemble) (l0 q0 : Option (List ℚ)) (k ui : ℕ) (e : E)
    (hnone : l0 = none ∨ q0 = none)
    (hfail : evalBatch C.lnpostfn C.kdeEval
      (ensureKde C st0 (p0.getD C.initDraw)).2 (p0.getD C.initDraw) =
      .error e) :
    (sample C st0 p0 l0 q0 k ui).err = some e ∧
    (sample C st0 p0 l0 q0 k ui).st.chain = st0.chain ∧
    (sample C st0 p0 l0 q0 k ui).st.lnpostH = st0.lnpostH ∧
    (sample C st0 p0 l0 q0 k ui).st.lnpropH = st0.lnpropH ∧
    (sample C st0 p0 l0 q0 k ui).st.acceptanceH = st0.acceptanceH ∧
    (sample C st0 p0 l0 q0 k ui).st.iterations = st0.iterations ∧
    (sample C st0 p0 l0 q0 k ui).st.failed_p = st0.failed_p ∧
    (sample C st0 p0 l0 q0 k ui).st.poolGen = st0.poolGen := by
  have hIV : initVals C (ensureKde C st0 (p0.getD C.initDraw)).2
      (p0.getD C.initDraw) l0 q0 = .error e := by
    rcases hnone with h | h <;> subst h <;> simp [initVals, hfail]
  rw [sample_err_eq C st0 p0 l0 q0 k ui e hIV]
  obtain ⟨hf1, hf2, hf3, hf4, hf5, hf6, hf7, hf8, hf9, hf10⟩ :=
    ensureKde_fields C st0 (p0.getD C.initDraw)
  exact ⟨rfl, hf2, hf3, hf4, hf5, hf1, hf6, hf7⟩

/-- Claim C6: for every finite `max_steps = ms`, `burnin` terminates in
finitely many steps — fuel `ms + 3` always suffices to reach a genuine exit
(success, give-up, or a propagated exception) — the final iteration count
never passes the budget `start + ms`, and whenever the next test window
would carry the count past the budget the loop gives up by returning the
last reached state non-fatally (`err = none`) instead of raising. -/
theorem claim_C6_burnin_terminates (C : Ctx E D)
    (ksPval : List ℚ → List ℚ → ℚ) (st : SamplerState D) (p0 : Ensemble)
    (l0 q0 : Option (List ℚ)) (ui ms : ℕ) :
    (∃ out, burnin C ksPval st p0 l0 q0 ui (some ms) (ms + 3) = some out ∧
      out.st.iterations ≤ st.iterations + ms) ∧
    (∀ (fuel t : ℕ) (st' : SamplerState D) (p : Ensemble)
      (l q : Option (List ℚ)),
      st.iterations + ms < st'.iterations + t →
      burninLoop C ksPval ui (some (st.iterations + ms)) (fuel + 1) t st'
        p l q = some ⟨st', p, l, q, false, none⟩) := by
  constructor
  · show ∃ out, burninLoop C ksPval ui (some (st.iterations + ms))
      (ms + 3) (min ui ms) st p0 l0 q0 = some out ∧
      out.st.iterations ≤ st.iterations + ms
    exact burninLoop_total C ksPval ui (st.iterations + ms) (ms + 3)
      (min ui ms) st p0 l0 q0 (by omega) (by omega) (fun _ => by omega)
  · intro fuel t st' p l q h
    exact burninLoop_guard C ksPval ui _ fuel t st' p l q h

unseal Rat.mul Rat.add Rat.sub Rat.inv in
/-- Claim C1, witness: with a posterior that raises error `7` on every
proposed batch, a 2-iteration `sample` call stores the offending batch in
`failed_p` and leaves the histories at the length of the iteration
counter. -/
theorem claim_C1_witness :
    (sample ctxFail stInit (some [[0]]) (some [0]) (some [0]) 2
        10).st.failed_p =
      some (ctxFail.draws
        (sample ctxFail stInit (some [[0]]) (some [0]) (some [0]) 2
          10).st.iterations) ∧
    (sample ctxFail stInit (some [[0]]) (some [0]) (some [0]) 2
        10).st.chain.length =
      (sample ctxFail stInit (some [[0]]) (some [0]) (some [0]) 2
        10).st.iterations := by
  have h := claim_C1_rollback_on_eval_error ctxFail stInit [[0]] [0] [0]
    2 10 7 rfl rfl rfl rfl (by decide)
  exact ⟨h.2.1, h.1.1⟩

unseal Rat.mul Rat.add Rat.sub Rat.inv in
/-- Claim C3, witness: a successful 3-iteration run from an empty history
grows the chain to length 3, equal to the iteration counter. -/
theorem claim_C3_witness :
    (sample ctxOk stInit (some [[0]]) none none 3 10).st.chain.length =
      stInit.chain.length + 3 ∧
    (sample ctxOk stInit (some [[0]]) none none 3 10).st.chain.length =
      (sample ctxOk stInit (some [[0]]) none none 3 10).st.iterations := by
  have h := claim_C3_lengths ctxOk stInit (some [[0]]) none none 3 10
    rfl rfl rfl rfl (by decide)
  exact ⟨h.1, h.2.2.2.2⟩

unseal Rat.mul Rat.add Rat.sub Rat.inv in
/-- Claim C9, witness: in a run whose single walker accepts a move, the
caller's `p0` buffer is untouched while the caller's `lnpost0` buffer holds
the final log-values, and the changed entry is witnessed by a stored
acceptance flag. -/
theorem claim_C9_witness :
    (sample ctxZero stInit (some [[0]]) (some [0]) (some [0]) 1
        10).callerP0 = some [[0]] ∧
    (sample ctxZero stInit (some [[0]]) (some [0]) (some [0]) 1
        10).callerLnpost0 =
      some (sample ctxZero stInit (some [[0]]) (some [0]) (some [0]) 1
        10).lnpost ∧
    (∃ i, stInit.iterations ≤ i ∧
      i < (sample ctxZero stInit (some [[0]]) (some [0]) (some [0]) 1
        10).st.iterations ∧
      (((sample ctxZero stInit (some [[0]]) (some [0]) (some [0]) 1
          10).st.acceptanceH.getD i []).getD 0 false) = true) := by
  have h := claim_C9_in_place_mutation ctxZero stInit [[0]] [0] [0] 1 10 rfl
  exact ⟨h.1, h.2.1, h.2.2.2 0 (Or.inl (by decide))⟩

unseal Rat.mul Rat.add Rat.sub Rat.inv in
/-- Claim C10, witness: with missing initial log-values and a posterior
that raises at the supplied `p0 = [[5]]`, `sample` re-raises error `7`
while the histories, counter, `failed_p` and pool are untouched. -/
theorem claim_C10_witness :
    (sample ctxFail stInit (some [[5]]) none none 2 10).err = some 7 ∧
    (sample ctxFail stInit (some [[5]]) none none 2 10).st.chain =
      stInit.chain ∧
    (sample ctxFail stInit (some [[5]]) none none 2 10).st.iterations =
      stInit.iterations ∧
    (sample ctxFail stInit (some [[5]]) none none 2 10).st.failed_p =
      stInit.failed_p ∧
    (sample ctxFail stInit (some [[5]]) none none 2 10).st.poolGen =
      stInit.poolGen := by
  have h := claim_C10_init_eval_error ctxFail stInit (some [[5]]) none none
    2 10 7 (Or.inl rfl) rfl
  exact ⟨h.1, h.2.1, h.2.2.2.2.2.1, h.2.2.2.2.2.2.1, h.2.2.2.2.2.2.2⟩

/-- Claim C6, witness: with `max_steps = 1` the burn-in loop run with fuel
`4` reaches a genuine exit within the budget, and a window of `5` steps
against a budget of `1` makes the loop give up immediately, returning the
current state non-fatally. -/
theorem claim_C6_witness :
    (∃ out, burnin ctxOk (fun _ _ => 1) stInit [[0]] none none 10 (some 1)
        4 = some out ∧ out.st.iterations ≤ stInit.iterations + 1) ∧
    burninLoop ctxOk (fun _ _ => 1) 10 (some (stInit.iterations + 1)) 1 5
        stInit [[0]] none none =
      some ⟨stInit, [[0]], none, none, false, none⟩ := by
  have h := claim_C6_burnin_terminates ctxOk (fun _ _ => 1) stInit [[0]]
    none none 10 1
  exact ⟨h.1, h.2 0 5 stInit [[0]] none none (by decide)⟩

end Kombine
